import Mathlib

/-!
Verification of the request-management layer of the warpcast client
(packages/client-warpcast): the rate limiter (utils/rateLimiter.ts), the
TTL response cache, the single-flight auth-token manager, the canonical
JSON signing payload, the error normalization and the auth interceptor
(all in client.ts).

Times are modelled as natural numbers of milliseconds since epoch.
JavaScript Map objects are modelled as insertion-ordered association
lists with unique keys; Map.set on an existing key updates the entry in
place (keeping its position), otherwise appends.
-/

/-! ## JavaScript Map primitives -/

/-- Map.set: update in place if the key is present, else append. -/
def mapSet {K V : Type} [DecidableEq K] (k : K) (v : V)
    (m : List (K × V)) : List (K × V) :=
  if m.any (fun p => decide (p.1 = k)) then
    m.map (fun p => if p.1 = k then (k, v) else p)
  else
    m ++ [(k, v)]

/-- Map.get: first binding for the key, if any. -/
def mapGet {K V : Type} [DecidableEq K] (k : K)
    (m : List (K × V)) : Option V :=
  match m.find? (fun p => decide (p.1 = k)) with
  | some p => some p.2
  | none => none

/-- Map.delete: remove the binding for the key. -/
def mapDelete {K V : Type} [DecidableEq K] (k : K)
    (m : List (K × V)) : List (K × V) :=
  m.filter (fun p => decide (p.1 ≠ k))

/-! ## RateLimiter (utils/rateLimiter.ts)

The limiter keeps a Map from operation key to the completion timestamp
of the last completed call with that key, a rate limit and an interval.
Client.ts constructs it as RateLimiter(100, 60 * 1000).
-/

structure RateLimiter where
  timestamps : List (String × Nat)
  rateLimit : Nat
  interval : Nat
deriving Repr, DecidableEq

/-- The limiter as constructed by WarpcastClient: 100 requests / 60 000 ms. -/
def RateLimiter.init : RateLimiter :=
  { timestamps := [], rateLimit := 100, interval := 60 * 1000 }

/-- waitForSlot: the wait (in ms) imposed before running the operation.
The recent list filters the stored timestamps to the trailing interval;
if it already has at least rateLimit entries, the wait is
interval - (now - oldest recent timestamp), else zero. -/
def RateLimiter.waitForSlot (rl : RateLimiter) (now : Nat) : Nat :=
  let recent := (rl.timestamps.map Prod.snd).filter
    (fun t => decide (now - t < rl.interval))
  if recent.length ≥ rl.rateLimit then
    match recent with
    | [] => 0
    | t :: ts => rl.interval - (now - ts.foldl Nat.min t)
  else 0

/-- updateTimestamp: record the completion time under the operation key
(overwriting any previous timestamp for that key), then discard
timestamps older than the interval. -/
def RateLimiter.updateTimestamp (rl : RateLimiter) (key : String)
    (now : Nat) : RateLimiter :=
  let recorded := mapSet key now rl.timestamps
  { rl with timestamps := recorded.filter (fun p => decide (¬ (now - p.2 > rl.interval))) }

/-- Result of one sequential RateLimiter.execute call: the limiter state
after the call, the completion time, and the propagated result. -/
structure ExecResult (T : Type) where
  limiter : RateLimiter
  time : Nat
  result : Except String T
deriving Repr

/-- execute: wait for a slot, run the operation (modelled by its
outcome fn and duration dur), record the timestamp only on success
(the catch block rethrows without recording), and propagate the result
unchanged. -/
def RateLimiter.execute {T : Type} (rl : RateLimiter) (key : String)
    (now : Nat) (fn : Except String T) (dur : Nat) : ExecResult T :=
  let w := rl.waitForSlot now
  let done := now + w + dur
  match fn with
  | .ok v => { limiter := rl.updateTimestamp key done, time := done, result := .ok v }
  | .error e => { limiter := rl, time := done, result := .error e }

/-- Run n back-to-back successful zero-duration operations, the i-th
tagged with key (keyOf i), each issued at the previous completion time.
Returns the final limiter, the final clock, and the completion times in
order. -/
def RateLimiter.runSeq (rl : RateLimiter) (keyOf : Nat → String)
    (now : Nat) : Nat → RateLimiter × Nat × List Nat
  | 0 => (rl, now, [])
  | n + 1 =>
    let r := rl.execute (keyOf 0) now (.ok ()) 0
    let (rl', t', ts) := r.limiter.runSeq (fun i => keyOf (i + 1)) r.time n
    (rl', t', r.time :: ts)

/-! ## Rate limiter helper lemmas -/

theorem mapSet_length_le {K V : Type} [DecidableEq K] (k : K) (v : V)
    (m : List (K × V)) : (mapSet k v m).length ≤ m.length + 1 := by
  unfold mapSet
  split
  · simp
  · simp

theorem mapSet_length_of_mem {K V : Type} [DecidableEq K] (k : K) (v : V)
    (m : List (K × V)) (h : m.any (fun p => decide (p.1 = k)) = true) :
    (mapSet k v m).length = m.length := by
  unfold mapSet
  rw [if_pos h]
  simp

set_option maxRecDepth 1000000

/-- C2 counterexample: a failing operation does NOT consume quota.
Executing one operation whose body raises leaves the limiter exactly as
it was (in particular, no completion timestamp is recorded), while the
error is propagated unchanged. The claim states the timestamp is still
recorded; here the timestamp map stays empty. -/
theorem rateLimiter_error_counterexample :
    (RateLimiter.init.execute "k" 0 (Except.error "boom" : Except String Unit) 0).limiter
      = RateLimiter.init ∧
    (RateLimiter.init.execute "k" 0 (Except.error "boom" : Except String Unit) 0).limiter.timestamps
      = [] ∧
    (RateLimiter.init.execute "k" 0 (Except.error "boom" : Except String Unit) 0).result
      = Except.error "boom" := by
  refine ⟨rfl, rfl, rfl⟩

/-- C2 (amended): if the operation raises an error, the limiter records
NO completion timestamp (the failed call consumes no quota — the catch
block rethrows before updateTimestamp runs) and propagates the error
unchanged to the caller. -/
theorem rateLimiter_error_no_quota (T : Type) (rl : RateLimiter) (key : String)
    (now dur : Nat) (e : String) :
    (rl.execute key now (Except.error e : Except String T) dur).limiter = rl ∧
    (rl.execute key now (Except.error e : Except String T) dur).result = Except.error e := by
  exact ⟨rfl, rfl⟩

/-- C3 counterexample: the window is collapsed per key. 101 back-to-back
zero-duration operations all tagged with the same key "k": the 1st
completes at time 0, and the 101st ALSO completes at time 0 — before the
60 000 ms interval has elapsed since the 1st's completion — because the
Map keyed by operation key holds a single timestamp for "k"; after two
completed calls the window holds one entry, not two. -/
theorem rateLimiter_per_key_counterexample :
    (RateLimiter.init.runSeq (fun _ => "k") 0 101).2.2.head? = some 0 ∧
    (RateLimiter.init.runSeq (fun _ => "k") 0 101).2.2.getLast? = some 0 ∧
    (RateLimiter.init.runSeq (fun _ => "k") 0 2).1.timestamps.length = 1 := by
  refine ⟨by decide, by decide, by decide⟩

/-- C3 (amended): the window holds at most one completion timestamp per
operation key (the latest one — recording under an already-present key
never grows the map). With limit + 1 = 101 back-to-back operations on
pairwise distinct keys, the 101st does not complete before the interval
has elapsed since the 1st's completion (completion times 0 and 60 000);
with a single repeated key, the 101st completes immediately at time 0. -/
theorem rateLimiter_window_collapsed_per_key :
    (∀ (rl : RateLimiter) (key : String) (now : Nat),
      (rl.updateTimestamp key now).timestamps.length ≤ rl.timestamps.length + 1 ∧
      (rl.timestamps.any (fun p => decide (p.1 = key)) = true →
        (rl.updateTimestamp key now).timestamps.length ≤ rl.timestamps.length)) ∧
    (RateLimiter.init.runSeq (fun i => toString i) 0 101).2.2.head? = some 0 ∧
    (RateLimiter.init.runSeq (fun i => toString i) 0 101).2.2.getLast? = some 60000 ∧
    (RateLimiter.init.runSeq (fun _ => "k") 0 101).2.2.getLast? = some 0 := by
  refine ⟨?_, by decide, by decide, by decide⟩
  intro rl key now
  constructor
  · exact le_trans (List.length_filter_le _ _) (mapSet_length_le key now rl.timestamps)
  · intro h
    calc ((rl.updateTimestamp key now).timestamps).length
        ≤ (mapSet key now rl.timestamps).length := List.length_filter_le _ _
      _ = rl.timestamps.length := mapSet_length_of_mem key now rl.timestamps h

/-- Witness for the hypothesis of the amended C3 theorem: recording a
completion for a key already in the window does not grow the window. -/
theorem rateLimiter_window_collapsed_per_key_witness :
    (RateLimiter.mk [("k", 0)] 100 60000 |>.updateTimestamp "k" 1).timestamps.length ≤ 1 :=
  (rateLimiter_window_collapsed_per_key.1 (RateLimiter.mk [("k", 0)] 100 60000) "k" 1).2
    (by decide)

/-! ## TTL response cache (client.ts)

The WarpcastClient keeps a Map from string cache key to an entry
holding a value and the storing timestamp. MAX_CACHE_SIZE and
CACHE_EXPIRY are the constants at the top of client.ts. The key type is
kept generic (JS Map keys can be any value; the client uses strings).
-/

def MAX_CACHE_SIZE : Nat := 1000
def CACHE_EXPIRY : Nat := 30 * 60 * 1000

structure CacheEntry (T : Type) where
  value : T
  timestamp : Nat
deriving Repr, DecidableEq

/-- cleanupCache: delete every expired entry (strictly older than
CACHE_EXPIRY); if the count of remaining entries still exceeds
MAX_CACHE_SIZE, sort them by timestamp ascending (stably, as
Array.prototype.sort; insertion sort is a stable sort) and delete the
first count - MAX_CACHE_SIZE keys. -/
def cleanupCache {K T : Type} [DecidableEq K] (now : Nat)
    (cache : List (K × CacheEntry T)) : List (K × CacheEntry T) :=
  let valid := cache.filter (fun p => !(decide (now - p.2.timestamp > CACHE_EXPIRY)))
  let count := valid.length
  if count > MAX_CACHE_SIZE then
    let entries := valid.insertionSort (fun a b => a.2.timestamp ≤ b.2.timestamp)
    let toRemove := entries.take (count - MAX_CACHE_SIZE)
    valid.filter (fun p => !(toRemove.any (fun q => decide (q.1 = p.1))))
  else valid

/-- setCacheEntry: if the cache has reached MAX_CACHE_SIZE, run
cleanupCache first; then store the value under the key with the current
timestamp. -/
def setCacheEntry {K T : Type} [DecidableEq K] (now : Nat)
    (cache : List (K × CacheEntry T)) (key : K) (value : T) :
    List (K × CacheEntry T) :=
  let cache' := if cache.length ≥ MAX_CACHE_SIZE then cleanupCache now cache else cache
  mapSet key (CacheEntry.mk value now) cache'

/-- getCacheEntry: absent keys give none; an entry strictly older than
CACHE_EXPIRY is deleted (lazy expiry) and none is returned; otherwise
the stored value is returned. Returns the value and the post-lookup
cache. -/
def getCacheEntry {K T : Type} [DecidableEq K] (now : Nat)
    (cache : List (K × CacheEntry T)) (key : K) :
    Option T × List (K × CacheEntry T) :=
  match mapGet key cache with
  | none => (none, cache)
  | some e =>
    if now - e.timestamp > CACHE_EXPIRY then (none, mapDelete key cache)
    else (some e.value, cache)

/-- Insert n distinct keys 0, 1, ..., n-1, the i-th inserted at time i
(all well within the TTL of each other). -/
def insertDistinct (v : String) : Nat → List (Nat × CacheEntry String)
  | 0 => []
  | n + 1 => setCacheEntry n (insertDistinct v n) n v


/-! ## Cache helper lemmas

The capacity-eviction step of cleanupCache is an instance of a generic
pattern: filter a list down to the elements whose key is not among the
keys of the first k elements of a stable sort of the list. The lemmas
below prove the length bound and the oldest-first property of that
pattern, then specialize them to cleanupCache.
-/

theorem countP_not_add {α : Type} (p : α → Bool) (l : List α) :
    l.countP p + l.countP (fun a => !p a) = l.length := by
  induction l with
  | nil => rfl
  | cons x t ih =>
    by_cases h : p x = true
    · simp [List.countP_cons, h]
      omega
    · simp [List.countP_cons, h, Bool.not_eq_true] at ih ⊢
      omega

/-- Dropping the keys of the first k sorted elements removes at least k
elements, since each of those k elements matches its own key. -/
theorem evict_take_length {α : Type} (valid : List α) (rel : α → α → Prop)
    [DecidableRel rel]
    (sameKey : α → α → Bool) (hrefl : ∀ a, sameKey a a = true) (k : Nat)
    (hk : k ≤ valid.length) :
    (valid.filter (fun p => !(((valid.insertionSort rel).take k).any (fun r => sameKey r p)))).length
      ≤ valid.length - k := by
  have hperm : List.Perm (valid.insertionSort rel) valid := List.perm_insertionSort rel valid
  have hlenE : (valid.insertionSort rel).length = valid.length := hperm.length_eq
  have htk : ((valid.insertionSort rel).take k).length = k := by
    rw [List.length_take]
    omega
  have hTk : ((valid.insertionSort rel).take k).countP
      (fun p => ((valid.insertionSort rel).take k).any (fun r => sameKey r p)) =
      ((valid.insertionSort rel).take k).length := by
    rw [List.countP_eq_length]
    intro r hr
    simp only [List.any_eq_true]
    exact ⟨r, hr, hrefl r⟩
  have hsplitP : ∀ (P : α → Bool) (l : List α) (j : Nat),
      l.countP P = (l.take j).countP P + (l.drop j).countP P := by
    intro P l j
    conv_lhs => rw [← List.take_append_drop j l]
    rw [List.countP_append]
  have hS : (valid.insertionSort rel).countP
      (fun p => ((valid.insertionSort rel).take k).any (fun r => sameKey r p)) ≥ k := by
    rw [hsplitP _ _ k]
    omega
  have hV : valid.countP
      (fun p => ((valid.insertionSort rel).take k).any (fun r => sameKey r p)) ≥ k := by
    rw [← hperm.countP_eq]
    exact hS
  have hsum := countP_not_add
    (fun p => ((valid.insertionSort rel).take k).any (fun r => sameKey r p)) valid
  have hkept : (valid.filter
      (fun p => !(((valid.insertionSort rel).take k).any (fun r => sameKey r p)))).length =
      valid.countP (fun p => !(((valid.insertionSort rel).take k).any (fun r => sameKey r p))) := by
    rw [List.countP_eq_length_filter]
  omega

/-- Oldest-first: in the sorted-take eviction pattern, with pairwise
distinct keys and a transitive total comparison, every evicted element
compares at most every kept element. -/
theorem evict_take_cross {α K' : Type} [DecidableEq K'] (valid : List α)
    (rel : α → α → Prop) [DecidableRel rel] [IsTotal α rel] [IsTrans α rel]
    (key : α → K') (hnd : (valid.map key).Nodup) (k : Nat)
    (q : α) (hqv : q ∈ valid)
    (hqout : q ∉ valid.filter
      (fun p => !(((valid.insertionSort rel).take k).any (fun r => decide (key r = key p)))))
    (p : α) (hp : p ∈ valid.filter
      (fun p => !(((valid.insertionSort rel).take k).any (fun r => decide (key r = key p))))) :
    rel q p := by
  have hperm : List.Perm (valid.insertionSort rel) valid := List.perm_insertionSort rel valid
  have hnde : ((valid.insertionSort rel).map key).Nodup :=
    ((hperm.map key).nodup_iff).mpr hnd
  have hqe : q ∈ valid.insertionSort rel := hperm.mem_iff.mpr hqv
  have hqfalse : ¬ ((fun p => !(((valid.insertionSort rel).take k).any
      (fun r => decide (key r = key p)))) q = true) := by
    intro hcontra
    exact hqout (List.mem_filter.mpr ⟨hqv, hcontra⟩)
  have hqkey : ∃ r ∈ (valid.insertionSort rel).take k, key r = key q := by
    simp only [Bool.not_eq_true', Bool.not_eq_false, List.any_eq_true] at hqfalse
    obtain ⟨r, hr, hrq⟩ := hqfalse
    exact ⟨r, hr, of_decide_eq_true hrq⟩
  obtain ⟨r, hrtr, hrk⟩ := hqkey
  have hre : r ∈ valid.insertionSort rel := List.mem_of_mem_take hrtr
  have hrq : r = q := List.inj_on_of_nodup_map hnde hre hqe hrk
  have hqtr : q ∈ (valid.insertionSort rel).take k := hrq ▸ hrtr
  have hsorted : (valid.insertionSort rel).Pairwise rel :=
    List.sorted_insertionSort rel valid
  have hpv : p ∈ valid := (List.mem_filter.mp hp).1
  have hptrue := (List.mem_filter.mp hp).2
  have hpe : p ∈ valid.insertionSort rel := hperm.mem_iff.mpr hpv
  have hpdrop : p ∈ (valid.insertionSort rel).drop k := by
    have hsplitmem : p ∈ (valid.insertionSort rel).take k ++ (valid.insertionSort rel).drop k := by
      rw [List.take_append_drop]
      exact hpe
    rcases List.mem_append.mp hsplitmem with hptake | hpd
    · exfalso
      simp only [Bool.not_eq_true', List.any_eq_false] at hptrue
      exact (hptrue p hptake) (decide_eq_true (rfl : key p = key p))
    · exact hpd
  have hcross : ∀ x ∈ (valid.insertionSort rel).take k,
      ∀ y ∈ (valid.insertionSort rel).drop k, rel x y := by
    have hs := hsorted
    conv at hs => rw [← List.take_append_drop k (valid.insertionSort rel)]
    exact fun x hx y hy => (List.pairwise_append.mp hs).2.2 x hx y hy
  exact hcross q hqtr p hpdrop

/-- cleanupCache never leaves more than MAX_CACHE_SIZE entries. -/
theorem cleanupCache_length_le {K T : Type} [DecidableEq K] (now : Nat)
    (cache : List (K × CacheEntry T)) :
    (cleanupCache now cache).length ≤ MAX_CACHE_SIZE := by
  simp only [cleanupCache]
  set valid := cache.filter (fun p => !(decide (now - p.2.timestamp > CACHE_EXPIRY))) with hv
  by_cases h : valid.length > MAX_CACHE_SIZE
  · rw [if_pos h]
    apply le_trans (evict_take_length valid
      (fun a b => a.2.timestamp ≤ b.2.timestamp)
      (fun r p => decide (r.1 = p.1))
      (fun a => decide_eq_true rfl)
      (valid.length - MAX_CACHE_SIZE)
      (by omega))
    omega
  · rw [if_neg h]
    omega

/-- cleanupCache evicts oldest-storedAt first: a valid (non-expired)
entry that cleanup removes is at least as old as every entry it keeps. -/
theorem cleanupCache_oldest_first {K T : Type} [DecidableEq K] (now : Nat)
    (cache : List (K × CacheEntry T)) (hnd : (cache.map Prod.fst).Nodup)
    (q : K × CacheEntry T) (hq : q ∈ cache)
    (hvq : now - q.2.timestamp ≤ CACHE_EXPIRY)
    (hout : q ∉ cleanupCache now cache) :
    ∀ p ∈ cleanupCache now cache, q.2.timestamp ≤ p.2.timestamp := by
  intro p hp
  simp only [cleanupCache] at hout hp
  set valid := cache.filter (fun p => !(decide (now - p.2.timestamp > CACHE_EXPIRY))) with hv
  have hqv : q ∈ valid := by
    rw [hv]
    refine List.mem_filter.mpr ⟨hq, ?_⟩
    simp only [Bool.not_eq_true', decide_eq_false_iff_not]
    omega
  by_cases h : valid.length > MAX_CACHE_SIZE
  · rw [if_pos h] at hout hp
    have hndv : (valid.map Prod.fst).Nodup := by
      rw [hv]
      exact List.Nodup.sublist (List.Sublist.map Prod.fst (List.filter_sublist cache)) hnd
    haveI : IsTotal (K × CacheEntry T) (fun a b => a.2.timestamp ≤ b.2.timestamp) :=
      ⟨fun a b => Nat.le_total a.2.timestamp b.2.timestamp⟩
    haveI : IsTrans (K × CacheEntry T) (fun a b => a.2.timestamp ≤ b.2.timestamp) :=
      ⟨fun a b c hab hbc => Nat.le_trans hab hbc⟩
    exact evict_take_cross valid
      (fun a b => a.2.timestamp ≤ b.2.timestamp)
      Prod.fst hndv (valid.length - MAX_CACHE_SIZE) q hqv hout p hp
  · rw [if_neg h] at hout
    exact absurd hqv hout

/-- Inserting fresh distinct keys at times 0, 1, ..., n-1 (all within
the TTL, the cache never above the cap by more than one) simply appends:
no entry is ever evicted while n stays at or below MAX_CACHE_SIZE + 1. -/
theorem insertDistinct_eq (v : String) :
    ∀ n, n ≤ MAX_CACHE_SIZE + 1 →
    insertDistinct v n = (List.range n).map (fun i => (i, CacheEntry.mk v i)) := by
  intro n
  induction n with
  | zero => intro _; rfl
  | succ n ih =>
    intro hn
    have hn' : n ≤ MAX_CACHE_SIZE := by
      simp only [MAX_CACHE_SIZE] at hn ⊢
      omega
    rw [insertDistinct, ih (by omega)]
    have hlen : ((List.range n).map (fun i => (i, CacheEntry.mk v i))).length = n := by
      simp
    have hclean : cleanupCache (K := Nat) (T := String) n
        ((List.range n).map (fun i => (i, CacheEntry.mk v i))) =
        (List.range n).map (fun i => (i, CacheEntry.mk v i)) := by
      simp only [cleanupCache]
      have hfilter : ((List.range n).map (fun i => (i, CacheEntry.mk v i))).filter
          (fun p => !(decide (n - p.2.timestamp > CACHE_EXPIRY))) =
          (List.range n).map (fun i => (i, CacheEntry.mk v i)) := by
        apply List.filter_eq_self.mpr
        intro p hp
        simp only [List.mem_map, List.mem_range] at hp
        obtain ⟨i, hi, rfl⟩ := hp
        simp only [Bool.not_eq_true', decide_eq_false_iff_not, CACHE_EXPIRY]
        simp only [MAX_CACHE_SIZE] at hn'
        omega
      rw [hfilter]
      rw [if_neg (by
        rw [hlen]
        omega)]
    have hany : (((List.range n).map (fun i => (i, CacheEntry.mk v i))).any
        (fun p => decide (p.1 = n))) = false := by
      apply List.any_eq_false.mpr
      intro p hp
      simp only [List.mem_map, List.mem_range] at hp
      obtain ⟨i, hi, rfl⟩ := hp
      have hi' : i < n := by simpa using hi
      simp only [decide_eq_true_eq]
      show ¬ (i = n)
      omega
    simp only [setCacheEntry]
    by_cases hcap : ((List.range n).map (fun i => (i, CacheEntry.mk v i))).length ≥ MAX_CACHE_SIZE
    · rw [if_pos hcap, hclean]
      simp only [mapSet]
      rw [if_neg (by rw [hany]; exact Bool.false_ne_true)]
      rw [List.range_succ, List.map_append]
      simp
    · rw [if_neg hcap]
      simp only [mapSet]
      rw [if_neg (by rw [hany]; exact Bool.false_ne_true)]
      rw [List.range_succ, List.map_append]
      simp

/-- C4 counterexample: inserting MAX_CACHE_SIZE + 1 = 1001 distinct keys
leaves 1001 entries present, not exactly 1000 with the oldest evicted:
setCacheEntry runs cleanupCache only when size is already at the cap,
and cleanupCache evicts only while the valid count STRICTLY exceeds
MAX_CACHE_SIZE, so the 1001st insert pushes the size to capacity + 1 and
no key is evicted. -/
theorem cache_capacity_counterexample :
    (insertDistinct "v" (MAX_CACHE_SIZE + 1)).length = MAX_CACHE_SIZE + 1 ∧
    ¬ (insertDistinct "v" (MAX_CACHE_SIZE + 1)).length = MAX_CACHE_SIZE := by
  have h := insertDistinct_eq "v" (MAX_CACHE_SIZE + 1) (le_refl _)
  rw [h]
  constructor
  · simp
  · simp [MAX_CACHE_SIZE]

/-- C4 (amended): inserting capacity + 1 distinct keys leaves all
capacity + 1 entries present; the count is driven back to at most
MAX_CACHE_SIZE whenever cleanupCache runs (periodic sweep or
set-triggered), and capacity eviction removes oldest-storedAt entries
first (every valid entry evicted is at least as old as every entry
kept); consequently a single setCacheEntry leaves at most
MAX_CACHE_SIZE + 1 entries. -/
theorem cache_eviction_policy :
    (insertDistinct "v" (MAX_CACHE_SIZE + 1)).length = MAX_CACHE_SIZE + 1 ∧
    (∀ (K T : Type) [DecidableEq K] (now : Nat) (cache : List (K × CacheEntry T)),
      (cleanupCache now cache).length ≤ MAX_CACHE_SIZE) ∧
    (∀ (K T : Type) [DecidableEq K] (now : Nat) (cache : List (K × CacheEntry T)),
      (cache.map Prod.fst).Nodup →
      ∀ q ∈ cache, now - q.2.timestamp ≤ CACHE_EXPIRY →
      q ∉ cleanupCache now cache →
      ∀ p ∈ cleanupCache now cache, q.2.timestamp ≤ p.2.timestamp) ∧
    (∀ (K T : Type) [DecidableEq K] (now : Nat) (cache : List (K × CacheEntry T))
      (key : K) (value : T),
      (setCacheEntry now cache key value).length ≤ MAX_CACHE_SIZE + 1) := by
  refine ⟨?_, ?_, ?_, ?_⟩
  · have h := insertDistinct_eq "v" (MAX_CACHE_SIZE + 1) (le_refl _)
    rw [h]
    simp
  · intro K T _ now cache
    exact cleanupCache_length_le now cache
  · intro K T _ now cache hnd q hq hvq hout
    exact cleanupCache_oldest_first now cache hnd q hq hvq hout
  · intro K T _ now cache key value
    simp only [setCacheEntry]
    by_cases h : cache.length ≥ MAX_CACHE_SIZE
    · rw [if_pos h]
      refine le_trans (mapSet_length_le key (CacheEntry.mk value now) _) ?_
      have := cleanupCache_length_le now cache
      omega
    · rw [if_neg h]
      refine le_trans (mapSet_length_le key (CacheEntry.mk value now) _) ?_
      omega

/-- Witness for the hypotheses of the amended C4 theorem: with 1001
valid entries (keys 0..1000 stored at times 0..1000), cleanupCache at
time 1000 evicts the oldest entry (key 0, timestamp 0), which is at
least as old as the kept entry with key 1. -/
theorem cache_eviction_policy_witness :
    ((0:Nat), CacheEntry.mk "v" 0).2.timestamp ≤ ((1:Nat), CacheEntry.mk "v" 1).2.timestamp :=
  cache_eviction_policy.2.2.1 Nat String 1000
    ((List.range (MAX_CACHE_SIZE + 1)).map (fun i => (i, CacheEntry.mk "v" i)))
    (by
      rw [List.map_map]
      have hcomp : (Prod.fst ∘ fun i => ((i : Nat), CacheEntry.mk "v" i)) = id := rfl
      rw [hcomp, List.map_id]
      exact List.nodup_range _)
    ((0:Nat), CacheEntry.mk "v" 0)
    (List.mem_map_of_mem _ (List.mem_range.mpr (by norm_num)))
    (by decide)
    (by decide)
    ((1:Nat), CacheEntry.mk "v" 1)
    (by decide)

/-! ## Map lookup lemmas -/

theorem mapGet_mapSet_self {K V : Type} [DecidableEq K] (k : K) (v : V)
    (m : List (K × V)) : mapGet k (mapSet k v m) = some v := by
  unfold mapSet
  by_cases h : m.any (fun p => decide (p.1 = k)) = true
  · rw [if_pos h]
    induction m with
    | nil => simp at h
    | cons x t ih =>
      by_cases hx : x.1 = k
      · unfold mapGet
        rw [List.map_cons, if_pos hx, List.find?_cons_of_pos _ (by simp)]
      · unfold mapGet
        rw [List.map_cons, if_neg hx,
          List.find?_cons_of_neg _ (by simp [hx])]
        have ht : t.any (fun p => decide (p.1 = k)) = true := by
          rcases List.any_eq_true.mp h with ⟨p, hp, hpk⟩
          rcases List.mem_cons.mp hp with rfl | hpt
          · exact absurd (of_decide_eq_true hpk) hx
          · exact List.any_eq_true.mpr ⟨p, hpt, hpk⟩
        have := ih ht
        unfold mapGet at this
        exact this
  · rw [if_neg h]
    unfold mapGet
    rw [List.find?_append]
    have hnone : m.find? (fun p => decide (p.1 = k)) = none := by
      rw [List.find?_eq_none]
      intro x hx
      simp only [decide_eq_true_eq]
      intro hxk
      exact h (List.any_eq_true.mpr ⟨x, hx, decide_eq_true hxk⟩)
    rw [hnone]
    simp

theorem mapGet_mapDelete_self {K V : Type} [DecidableEq K] (k : K)
    (m : List (K × V)) : mapGet k (mapDelete k m) = none := by
  unfold mapGet mapDelete
  have hnone : (m.filter (fun p => decide (p.1 ≠ k))).find?
      (fun p => decide (p.1 = k)) = none := by
    rw [List.find?_eq_none]
    intro x hx
    have := (List.mem_filter.mp hx).2
    simp only [decide_eq_true_eq] at this ⊢
    exact this
  rw [hnone]

/-- C7 counterexample: at EXACTLY the TTL the value is still returned.
An entry stored at time 0 and looked up at time 1 800 000, i.e. once the
30-minute TTL has elapsed, is still returned (not absent): the expiry
test in getCacheEntry is strict (now - timestamp > CACHE_EXPIRY). -/
theorem cache_ttl_counterexample :
    (getCacheEntry CACHE_EXPIRY
        (setCacheEntry 0 ([] : List (Nat × CacheEntry String)) 7 "v") 7).1 = some "v" ∧
    ¬ (getCacheEntry CACHE_EXPIRY
        (setCacheEntry 0 ([] : List (Nat × CacheEntry String)) 7 "v") 7).1 = none := by
  exact ⟨by decide, by decide⟩

/-- C7 (amended): get after set returns the value while AT MOST the TTL
has elapsed since the set; once STRICTLY more than the TTL has elapsed
it returns absent and deletes the entry as a side effect of the lookup
(lazy expiry); get on a missing key is a normal absent result leaving
the cache untouched (never an error — getCacheEntry is total). -/
theorem cache_ttl_get_set :
    (∀ (K V : Type) [DecidableEq K] (cache : List (K × CacheEntry V)) (k : K) (v : V)
      (now now' : Nat),
      (now' - now ≤ CACHE_EXPIRY →
        getCacheEntry now' (setCacheEntry now cache k v) k
          = (some v, setCacheEntry now cache k v)) ∧
      (now' - now > CACHE_EXPIRY →
        (getCacheEntry now' (setCacheEntry now cache k v) k).1 = none ∧
        mapGet k (getCacheEntry now' (setCacheEntry now cache k v) k).2 = none)) ∧
    (∀ (K V : Type) [DecidableEq K] (cache : List (K × CacheEntry V)) (k : K) (now : Nat),
      mapGet k cache = none → getCacheEntry now cache k = (none, cache)) := by
  constructor
  · intro K V _ cache k v now now'
    have hget : mapGet k (setCacheEntry now cache k v) = some (CacheEntry.mk v now) := by
      unfold setCacheEntry
      exact mapGet_mapSet_self k (CacheEntry.mk v now) _
    constructor
    · intro hle
      unfold getCacheEntry
      rw [hget]
      simp only []
      rw [if_neg (by
        show ¬ (now' - now > CACHE_EXPIRY)
        omega)]
    · intro hgt
      unfold getCacheEntry
      rw [hget]
      simp only []
      rw [if_pos (by
        show now' - now > CACHE_EXPIRY
        omega)]
      exact ⟨rfl, mapGet_mapDelete_self k _⟩
  · intro K V _ cache k now hnone
    unfold getCacheEntry
    rw [hnone]

/-- Witness for the hypotheses of the amended C7 theorem: a value set at
time 0 and read back at time 10 is returned with the cache unchanged. -/
theorem cache_ttl_get_set_witness :
    getCacheEntry 10 (setCacheEntry 0 ([] : List (Nat × CacheEntry String)) 7 "v") 7
      = (some "v", setCacheEntry 0 ([] : List (Nat × CacheEntry String)) 7 "v") :=
  (cache_ttl_get_set.1 Nat String [] 7 "v" 0 10).1 (by decide)

/-! ## TokenManager (client.ts, getValidAuthToken / generateAuthToken)

getValidAuthToken runs on a single-threaded cooperative event loop: its
synchronous prefix — the cached-token check, the in-flight-promise check
and (when starting a refresh) the assignment of tokenGenerationPromise —
executes atomically before the caller suspends. We model a scenario as a
list of atomic events: an enter event (one caller running that prefix)
and a settle event (the generation promise resolving or rejecting
together with the owner's continuation, which caches the token on
success and clears the in-flight marker in the finally block). A caller
that found the promise non-null returns that same promise, so in a
scenario with a single settle event every waiter receives exactly the
settle's result.

Constants from client.ts: REFRESH_BUFFER = 30 min, the sanity horizon
24 h, and the cached validity 8 h, all in milliseconds.
-/

def REFRESH_BUFFER : Nat := 30 * 60 * 1000
def TOKEN_HORIZON : Nat := 24 * 60 * 60 * 1000
def TOKEN_VALIDITY : Nat := 8 * 60 * 60 * 1000

structure CachedToken where
  token : String
  expiresAt : Nat
deriving Repr, DecidableEq

/-- The cached-token guard of getValidAuthToken: the token is used
directly iff it exists, has not expired, expires within 24 hours, and
more than REFRESH_BUFFER remains. -/
def tokenUsable (now : Nat) (c : CachedToken) : Bool :=
  decide (c.expiresAt > now) &&
  decide (c.expiresAt < now + TOKEN_HORIZON) &&
  decide (c.expiresAt > now + REFRESH_BUFFER)

/-- Token-manager state: the cached token, whether
tokenGenerationPromise is non-null, and how many generateAuthToken
round-trips were started. -/
structure TMState where
  cachedToken : Option CachedToken
  inFlight : Bool
  started : Nat
deriving Repr, DecidableEq

def TMState.init : TMState :=
  { cachedToken := none, inFlight := false, started := 0 }

/-- What one caller's synchronous prefix did: returned the cached token
immediately (hit, no I/O), attached to the in-flight promise
(awaitExisting), or started a new generation and awaits it
(startOwner). -/
inductive TMOutcome where
  | hit (tok : String)
  | awaitExisting
  | startOwner
deriving Repr, DecidableEq

/-- The synchronous prefix of getValidAuthToken. -/
def tmEnter (now : Nat) (s : TMState) : TMState × TMOutcome :=
  match s.cachedToken with
  | some c =>
    if tokenUsable now c then (s, .hit c.token)
    else if s.inFlight then (s, .awaitExisting)
    else ({ s with inFlight := true, started := s.started + 1 }, .startOwner)
  | none =>
    if s.inFlight then (s, .awaitExisting)
    else ({ s with inFlight := true, started := s.started + 1 }, .startOwner)

/-- The settle of the generation promise together with the owner's
continuation: on success the token is cached with expiry now +
TOKEN_VALIDITY and the finally block clears the promise; on rejection
only the finally block runs (no token is cached). -/
def tmSettle (now : Nat) (r : Except String String) (s : TMState) : TMState :=
  match r with
  | .ok tok =>
    { s with cachedToken := some (CachedToken.mk tok (now + TOKEN_VALIDITY)),
             inFlight := false }
  | .error _ => { s with inFlight := false }

inductive TMEvent where
  | enter
  | settle (r : Except String String)

def TMEvent.isEnter : TMEvent → Bool
  | .enter => true
  | .settle _ => false

/-- Run a scenario: process the events in order, collecting one outcome
per enter event. -/
def tmRun (now : Nat) : List TMEvent → TMState → TMState × List TMOutcome
  | [], s => (s, [])
  | .enter :: evs, s =>
    let r := tmEnter now s
    let r' := tmRun now evs r.1
    (r'.1, r.2 :: r'.2)
  | .settle x :: evs, s => tmRun now evs (tmSettle now x s)

/-- The value a caller's getValidAuthToken call eventually produces, in
a scenario whose single settle event has result r: a hit returns the
cached token; the owner and every waiter await the generation promise
and receive r. -/
def tmOutcomeResult (r : Except String String) : TMOutcome → Except String String
  | .hit tok => .ok tok
  | .awaitExisting => r
  | .startOwner => r

theorem tmRun_cons_enter (now : Nat) (evs : List TMEvent) (s : TMState) :
    tmRun now (TMEvent.enter :: evs) s =
      ((tmRun now evs (tmEnter now s).1).1,
       (tmEnter now s).2 :: (tmRun now evs (tmEnter now s).1).2) := rfl

theorem tmRun_cons_settle (now : Nat) (r : Except String String)
    (evs : List TMEvent) (s : TMState) :
    tmRun now (TMEvent.settle r :: evs) s = tmRun now evs (tmSettle now r s) := rfl

theorem tmRun_append (now : Nat) (l₁ l₂ : List TMEvent) (s : TMState) :
    tmRun now (l₁ ++ l₂) s =
      ((tmRun now l₂ (tmRun now l₁ s).1).1,
       (tmRun now l₁ s).2 ++ (tmRun now l₂ (tmRun now l₁ s).1).2) := by
  induction l₁ generalizing s with
  | nil => simp [tmRun]
  | cons e t ih =>
    cases e with
    | enter =>
      rw [List.cons_append, tmRun_cons_enter, tmRun_cons_enter, ih]
      rfl
    | settle r =>
      rw [List.cons_append, tmRun_cons_settle, tmRun_cons_settle, ih]

/-- While a refresh is in flight and no token is cached, every entering
caller attaches to the existing promise and the state is unchanged. -/
theorem tmRun_waitPhase (now : Nat) (evs : List TMEvent) (s : TMState)
    (hnone : s.cachedToken = none) (hin : s.inFlight = true)
    (hE : evs.all TMEvent.isEnter = true) :
    tmRun now evs s = (s, List.replicate evs.length TMOutcome.awaitExisting) := by
  induction evs with
  | nil => simp [tmRun]
  | cons e t ih =>
    cases e with
    | settle r => simp [TMEvent.isEnter] at hE
    | enter =>
      have ht : t.all TMEvent.isEnter = true := by simpa [TMEvent.isEnter] using hE
      have henter : tmEnter now s = (s, TMOutcome.awaitExisting) := by
        simp [tmEnter, hnone, hin]
      rw [tmRun_cons_enter, henter, ih ht]
      simp [List.replicate]

/-- Once a usable token is cached, every entering caller returns it
immediately with the state unchanged. -/
theorem tmRun_hitPhase (now : Nat) (evs : List TMEvent) (s : TMState)
    (c : CachedToken) (hsome : s.cachedToken = some c)
    (husable : tokenUsable now c = true)
    (hE : evs.all TMEvent.isEnter = true) :
    tmRun now evs s = (s, List.replicate evs.length (TMOutcome.hit c.token)) := by
  induction evs with
  | nil => simp [tmRun]
  | cons e t ih =>
    cases e with
    | settle r => simp [TMEvent.isEnter] at hE
    | enter =>
      have ht : t.all TMEvent.isEnter = true := by simpa [TMEvent.isEnter] using hE
      have henter : tmEnter now s = (s, TMOutcome.hit c.token) := by
        simp [tmEnter, hsome, husable]
      rw [tmRun_cons_enter, henter, ih ht]
      simp [List.replicate]

/-- A token cached for TOKEN_VALIDITY = 8 h passes the guard: it has not
expired, lies below the 24 h horizon, and more than the 30-minute buffer
remains. -/
theorem tokenUsable_fresh (now : Nat) (tok : String) :
    tokenUsable now (CachedToken.mk tok (now + TOKEN_VALIDITY)) = true := by
  simp only [tokenUsable, CachedToken.mk, TOKEN_VALIDITY, TOKEN_HORIZON, REFRESH_BUFFER,
    Bool.and_eq_true, decide_eq_true_eq]
  omega

/-- C1: single flight. In any scenario that starts with no cached token
and no in-flight refresh, where N ≥ 1 callers enter (some before the
generation promise settles with a token, some after) and the promise
settles exactly once, exactly ONE generateAuthToken round-trip is
started, every caller gets an outcome, and every caller's
getValidAuthToken call returns the identical token: the one produced by
that single round-trip. Callers entering while the refresh is in flight
attach to the existing promise rather than starting a second one. -/
theorem tokenManager_single_flight (now : Nat) (tok : String)
    (pre post : List TMEvent)
    (hpre : pre ≠ []) (hpreE : pre.all TMEvent.isEnter = true)
    (hpostE : post.all TMEvent.isEnter = true) :
    (tmRun now (pre ++ TMEvent.settle (Except.ok tok) :: post) TMState.init).1.started = 1 ∧
    (tmRun now (pre ++ TMEvent.settle (Except.ok tok) :: post) TMState.init).2.length
      = pre.length + post.length ∧
    ∀ o ∈ (tmRun now (pre ++ TMEvent.settle (Except.ok tok) :: post) TMState.init).2,
      tmOutcomeResult (Except.ok tok) o = Except.ok tok := by
  cases pre with
  | nil => exact absurd rfl hpre
  | cons e pre' =>
    cases e with
    | settle r => simp [TMEvent.isEnter] at hpreE
    | enter =>
      have hpre'E : pre'.all TMEvent.isEnter = true := by
        simpa [TMEvent.isEnter] using hpreE
      have h1 : tmEnter now TMState.init =
          (TMState.mk none true 1, TMOutcome.startOwner) := rfl
      have h2 : tmSettle now (Except.ok tok) (TMState.mk none true 1) =
          TMState.mk (some (CachedToken.mk tok (now + TOKEN_VALIDITY))) false 1 := rfl
      have hwait := tmRun_waitPhase now pre' (TMState.mk none true 1) rfl rfl hpre'E
      have hhit := tmRun_hitPhase now post
        (TMState.mk (some (CachedToken.mk tok (now + TOKEN_VALIDITY))) false 1)
        (CachedToken.mk tok (now + TOKEN_VALIDITY)) rfl
        (tokenUsable_fresh now tok) hpostE
      have hrun : tmRun now ((TMEvent.enter :: pre') ++ TMEvent.settle (Except.ok tok) :: post)
          TMState.init =
          (TMState.mk (some (CachedToken.mk tok (now + TOKEN_VALIDITY))) false 1,
           TMOutcome.startOwner ::
             (List.replicate pre'.length TMOutcome.awaitExisting ++
              List.replicate post.length (TMOutcome.hit tok))) := by
        rw [List.cons_append, tmRun_cons_enter, h1]
        simp only []
        rw [tmRun_append, hwait]
        simp only []
        rw [tmRun_cons_settle, h2, hhit]
      rw [hrun]
      refine ⟨rfl, ?_, ?_⟩
      · simp only [List.length_cons, List.length_append, List.length_replicate]
        omega
      · intro o ho
        simp only [List.mem_cons, List.mem_append, List.mem_replicate] at ho
        rcases ho with rfl | ⟨_, rfl⟩ | ⟨_, rfl⟩ <;> rfl

/-- Witness for the hypotheses of the C1 theorem: three concurrent
callers, two entering before the refresh settles and one after, all
receive the token "t" and exactly one round-trip is started. -/
theorem tokenManager_single_flight_witness :
    (tmRun 0 ([TMEvent.enter, TMEvent.enter] ++ TMEvent.settle (Except.ok "t") :: [TMEvent.enter])
        TMState.init).1.started = 1 ∧
    (tmRun 0 ([TMEvent.enter, TMEvent.enter] ++ TMEvent.settle (Except.ok "t") :: [TMEvent.enter])
        TMState.init).2.length = 3 ∧
    ∀ o ∈ (tmRun 0 ([TMEvent.enter, TMEvent.enter] ++ TMEvent.settle (Except.ok "t") :: [TMEvent.enter])
        TMState.init).2,
      tmOutcomeResult (Except.ok "t") o = Except.ok "t" :=
  tokenManager_single_flight 0 "t" [TMEvent.enter, TMEvent.enter] [TMEvent.enter]
    (by simp) rfl rfl

/-- C5: the cached token is returned immediately with no I/O (state
unchanged, no round-trip started) iff it exists, is not past expiry,
expires within the 24 h horizon, and more than the 30-minute
REFRESH_BUFFER remains. Concretely: a token with expiresAt = now + 40
min is returned with zero network calls; one with expiresAt = now + 10
min starts exactly one refresh. -/
theorem tokenManager_cache_hit_iff :
    (∀ (now : Nat) (s : TMState) (c : CachedToken), s.cachedToken = some c →
      now < c.expiresAt → c.expiresAt < now + TOKEN_HORIZON →
      now + REFRESH_BUFFER < c.expiresAt →
      tmEnter now s = (s, TMOutcome.hit c.token)) ∧
    (∀ (now : Nat) (s : TMState) (c : CachedToken), s.cachedToken = some c →
      ¬ (now < c.expiresAt ∧ c.expiresAt < now + TOKEN_HORIZON ∧
         now + REFRESH_BUFFER < c.expiresAt) →
      ∀ t, (tmEnter now s).2 ≠ TMOutcome.hit t) ∧
    (∀ (now : Nat) (s : TMState), s.cachedToken = none →
      ∀ t, (tmEnter now s).2 ≠ TMOutcome.hit t) ∧
    (∀ (t0 : Nat) (tok : String) (k : Nat),
      tmEnter t0 (TMState.mk (some (CachedToken.mk tok (t0 + 40 * 60 * 1000))) false k)
        = (TMState.mk (some (CachedToken.mk tok (t0 + 40 * 60 * 1000))) false k,
           TMOutcome.hit tok)) ∧
    (∀ (t0 : Nat) (tok : String) (k : Nat),
      tmEnter t0 (TMState.mk (some (CachedToken.mk tok (t0 + 10 * 60 * 1000))) false k)
        = (TMState.mk (some (CachedToken.mk tok (t0 + 10 * 60 * 1000))) true (k + 1),
           TMOutcome.startOwner)) := by
  have husable : ∀ (now : Nat) (c : CachedToken),
      tokenUsable now c = true ↔
      (now < c.expiresAt ∧ c.expiresAt < now + TOKEN_HORIZON ∧
       now + REFRESH_BUFFER < c.expiresAt) := by
    intro now c
    simp only [tokenUsable, Bool.and_eq_true, decide_eq_true_eq]
    omega
  refine ⟨?_, ?_, ?_, ?_, ?_⟩
  · intro now s c hsome h1 h2 h3
    have hu : tokenUsable now c = true := (husable now c).mpr ⟨h1, h2, h3⟩
    simp [tmEnter, hsome, hu]
  · intro now s c hsome hnot t
    have hu : tokenUsable now c = false := by
      rcases Bool.eq_false_or_eq_true (tokenUsable now c) with h | h
      · exact absurd ((husable now c).mp h) hnot
      · exact h
    by_cases hf : s.inFlight = true
    · simp [tmEnter, hsome, hu, hf]
    · simp [tmEnter, hsome, hu, Bool.eq_false_iff.mpr hf]
  · intro now s hnone t
    by_cases hf : s.inFlight = true
    · simp [tmEnter, hnone, hf]
    · simp [tmEnter, hnone, Bool.eq_false_iff.mpr hf]
  · intro t0 tok k
    have hu : tokenUsable t0 (CachedToken.mk tok (t0 + 40 * 60 * 1000)) = true := by
      rw [husable]
      refine ⟨?_, ?_, ?_⟩ <;>
        simp only [CachedToken.mk, TOKEN_HORIZON, REFRESH_BUFFER] <;> omega
    simp [tmEnter, hu]
  · intro t0 tok k
    have hu : tokenUsable t0 (CachedToken.mk tok (t0 + 10 * 60 * 1000)) = false := by
      simp only [tokenUsable, Bool.and_eq_true, decide_eq_true_eq, CachedToken.mk,
        TOKEN_HORIZON, REFRESH_BUFFER, Bool.and_eq_false_iff]
      right
      simp only [decide_eq_false_iff_not]
      omega
    simp [tmEnter, hu]

/-- Witness for the hypotheses of the C5 theorem: a token expiring 40
minutes from now (now = 0) is returned directly with the manager state
untouched. -/
theorem tokenManager_cache_hit_iff_witness :
    tmEnter 0 (TMState.mk (some (CachedToken.mk "t" 2400000)) false 0)
      = (TMState.mk (some (CachedToken.mk "t" 2400000)) false 0, TMOutcome.hit "t") :=
  tokenManager_cache_hit_iff.1 0 (TMState.mk (some (CachedToken.mk "t" 2400000)) false 0)
    (CachedToken.mk "t" 2400000) rfl (by decide) (by decide) (by decide)

/-- C6: a failed refresh. One caller starts the refresh, any number of
callers attach while it is in flight, and the generation promise
rejects: the finally block clears the in-flight marker, no token is
cached (cachedToken stays none), the error is surfaced to the owner and
every waiter, and the NEXT call to getValidAuthToken starts a fresh
refresh (no permanent lock). -/
theorem tokenManager_refresh_failure (now : Nat) (e : String) (k : Nat)
    (waiters : List TMEvent) (hW : waiters.all TMEvent.isEnter = true) :
    (tmRun now (TMEvent.enter :: (waiters ++ [TMEvent.settle (Except.error e)]))
        (TMState.mk none false k)).1 = TMState.mk none false (k + 1) ∧
    (∀ o ∈ (tmRun now (TMEvent.enter :: (waiters ++ [TMEvent.settle (Except.error e)]))
        (TMState.mk none false k)).2,
      tmOutcomeResult (Except.error e) o = Except.error e) ∧
    (tmEnter now (tmRun now (TMEvent.enter :: (waiters ++ [TMEvent.settle (Except.error e)]))
        (TMState.mk none false k)).1).2 = TMOutcome.startOwner ∧
    (tmEnter now (tmRun now (TMEvent.enter :: (waiters ++ [TMEvent.settle (Except.error e)]))
        (TMState.mk none false k)).1).1.started = k + 2 := by
  have h1 : tmEnter now (TMState.mk none false k) =
      (TMState.mk none true (k + 1), TMOutcome.startOwner) := rfl
  have hwait := tmRun_waitPhase now waiters (TMState.mk none true (k + 1)) rfl rfl hW
  have h2 : tmSettle now (Except.error e) (TMState.mk none true (k + 1)) =
      TMState.mk none false (k + 1) := rfl
  have hrun : tmRun now (TMEvent.enter :: (waiters ++ [TMEvent.settle (Except.error e)]))
      (TMState.mk none false k) =
      (TMState.mk none false (k + 1),
       TMOutcome.startOwner :: List.replicate waiters.length TMOutcome.awaitExisting) := by
    rw [tmRun_cons_enter, h1]
    simp only []
    rw [tmRun_append, hwait]
    simp only []
    rw [tmRun_cons_settle, h2]
    simp [tmRun]
  rw [hrun]
  refine ⟨rfl, ?_, rfl, rfl⟩
  intro o ho
  simp only [List.mem_cons, List.mem_replicate] at ho
  rcases ho with rfl | ⟨_, rfl⟩ <;> rfl

/-- Witness for the hypotheses of the C6 theorem: the owner plus one
waiter, the refresh rejects with "boom"; both see the error, no token is
cached, and the next call starts refresh number two. -/
theorem tokenManager_refresh_failure_witness :
    (tmRun 0 (TMEvent.enter :: ([TMEvent.enter] ++ [TMEvent.settle (Except.error "boom")]))
        (TMState.mk none false 0)).1 = TMState.mk none false 1 ∧
    (∀ o ∈ (tmRun 0 (TMEvent.enter :: ([TMEvent.enter] ++ [TMEvent.settle (Except.error "boom")]))
        (TMState.mk none false 0)).2,
      tmOutcomeResult (Except.error "boom") o = Except.error "boom") ∧
    (tmEnter 0 (tmRun 0 (TMEvent.enter :: ([TMEvent.enter] ++ [TMEvent.settle (Except.error "boom")]))
        (TMState.mk none false 0)).1).2 = TMOutcome.startOwner ∧
    (tmEnter 0 (tmRun 0 (TMEvent.enter :: ([TMEvent.enter] ++ [TMEvent.settle (Except.error "boom")]))
        (TMState.mk none false 0)).1).1.started = 2 :=
  tokenManager_refresh_failure 0 "boom" 0 [TMEvent.enter] rfl

/-! ## Canonical JSON signing payload (client.ts, generateAuthToken)

generateAuthToken serializes the signing payload with a JSON.stringify
replacer that rebuilds every object with its keys sorted, so the string
handed to the signer is canonical. JSON values are modelled by a mutual
inductive (objects hold a field list); the payload contains only
objects, strings and numbers, so arrays are not modelled. JS sorts keys
by comparing code units; this is modelled by lexicographic comparison of
the character code points (identical for the ASCII keys involved).
String escaping is not modelled: the payload contains no characters
needing escapes.
-/

mutual
inductive JVal where
  | str (s : String)
  | num (n : Int)
  | bool (b : Bool)
  | null
  | obj (fields : JFields)
inductive JFields where
  | nil
  | fcons (k : String) (v : JVal) (rest : JFields)
end

/-- Lexicographic order on code points, as the default JS sort compares
key strings. -/
def charsLe : List Char → List Char → Bool
  | [], _ => true
  | _ :: _, [] => false
  | c :: cs, d :: ds =>
    if c.toNat < d.toNat then true
    else if d.toNat < c.toNat then false
    else charsLe cs ds

def strLe (a b : String) : Bool := charsLe a.data b.data

def JFields.toList : JFields → List (String × JVal)
  | .nil => []
  | .fcons k v rest => (k, v) :: rest.toList

def JFields.ofList : List (String × JVal) → JFields
  | [] => .nil
  | (k, v) :: rest => .fcons k v (JFields.ofList rest)

mutual
/-- The replacer of generateAuthToken: every object is rebuilt with its
keys sorted (recursively, since JSON.stringify applies the replacer at
every level); primitives are returned unchanged. -/
def canonicalize : JVal → JVal
  | .obj fields =>
    .obj (JFields.ofList
      ((canonFields fields).insertionSort (fun a b => strLe a.1 b.1 = true)))
  | .str s => .str s
  | .num n => .num n
  | .bool b => .bool b
  | .null => .null
def canonFields : JFields → List (String × JVal)
  | .nil => []
  | .fcons k v rest => (k, canonicalize v) :: canonFields rest
end

mutual
/-- JSON.stringify of the (already replaced) value. -/
def stringify : JVal → String
  | .str s => "\"" ++ s ++ "\""
  | .num n => toString n
  | .bool true => "true"
  | .bool false => "false"
  | .null => "null"
  | .obj fields => "\x7b" ++ stringifyFields fields ++ "\x7d"
def stringifyFields : JFields → String
  | .nil => ""
  | .fcons k v .nil => "\"" ++ k ++ "\":" ++ stringify v
  | .fcons k v rest => "\"" ++ k ++ "\":" ++ stringify v ++ "," ++ stringifyFields rest
end

mutual
/-- Well-formed JSON: within every object the keys are pairwise
distinct, as they are for any JS object. -/
def wfKeys : JVal → Bool
  | .obj fields => decide ((fields.toList.map Prod.fst).Nodup) && wfFields fields
  | .str _ => true
  | .num _ => true
  | .bool _ => true
  | .null => true
def wfFields : JFields → Bool
  | .nil => true
  | .fcons _ v rest => wfKeys v && wfFields rest
end

/-- FInsert k w l l' holds when l' is l with the field (k, w) inserted
at some position. -/
inductive FInsert (k : String) (w : JVal) : JFields → JFields → Prop where
  | head (l : JFields) : FInsert k w l (.fcons k w l)
  | tail (k' : String) (v' : JVal) {l l' : JFields} :
      FInsert k w l l' → FInsert k w (.fcons k' v' l) (.fcons k' v' l')

mutual
/-- Two JSON values that are the same payload up to the insertion order
of object keys, recursively at every nesting level: field lists are
related when one is obtained from the other by permutation (presented as
repeated insertion) with recursively related values. -/
inductive KeyPerm : JVal → JVal → Prop where
  | str (s : String) : KeyPerm (.str s) (.str s)
  | num (n : Int) : KeyPerm (.num n) (.num n)
  | bool (b : Bool) : KeyPerm (.bool b) (.bool b)
  | null : KeyPerm .null .null
  | obj {fa fb : JFields} : FieldsPerm fa fb → KeyPerm (.obj fa) (.obj fb)
inductive FieldsPerm : JFields → JFields → Prop where
  | nil : FieldsPerm .nil .nil
  | cons (k : String) {v w : JVal} {l₁ l₂ l₂' : JFields} :
      KeyPerm v w → FieldsPerm l₁ l₂ → FInsert k w l₂ l₂' →
      FieldsPerm (.fcons k v l₁) l₂'
end

/-- The payload signed during token refresh (generateAuthToken):
method "generateToken" and params holding the millisecond timestamp. -/
def signPayload (timestampMs : Int) : JVal :=
  .obj (.fcons "method" (.str "generateToken")
    (.fcons "params" (.obj (.fcons "timestamp" (.num timestampMs) .nil)) .nil))

theorem charsLe_total : ∀ xs ys, charsLe xs ys = true ∨ charsLe ys xs = true
  | [], _ => Or.inl rfl
  | _ :: _, [] => Or.inr rfl
  | c :: cs, d :: ds => by
    simp only [charsLe]
    rcases Nat.lt_trichotomy c.toNat d.toNat with h | h | h
    · left
      rw [if_pos h]
    · rcases charsLe_total cs ds with ih | ih
      · left
        rw [if_neg (by omega), if_neg (by omega)]
        exact ih
      · right
        rw [if_neg (by omega), if_neg (by omega)]
        exact ih
    · right
      rw [if_pos h]

theorem charsLe_trans : ∀ xs ys zs, charsLe xs ys = true → charsLe ys zs = true →
    charsLe xs zs = true
  | [], _, _, _, _ => rfl
  | x :: xs, [], zs, h₁, _ => by simp [charsLe] at h₁
  | x :: xs, y :: ys, [], _, h₂ => by simp [charsLe] at h₂
  | x :: xs, y :: ys, z :: zs, h₁, h₂ => by
    simp only [charsLe] at h₁ h₂ ⊢
    by_cases hxy : x.toNat < y.toNat
    · by_cases hyz : y.toNat < z.toNat
      · rw [if_pos (by omega)]
      · by_cases hzy : z.toNat < y.toNat
        · rw [if_neg hyz, if_pos hzy] at h₂
          exact absurd h₂ (by simp)
        · rw [if_pos (by omega)]
    · by_cases hyx : y.toNat < x.toNat
      · rw [if_neg hxy, if_pos hyx] at h₁
        exact absurd h₁ (by simp)
      · by_cases hyz : y.toNat < z.toNat
        · rw [if_pos (by omega)]
        · by_cases hzy : z.toNat < y.toNat
          · rw [if_neg hyz, if_pos hzy] at h₂
            exact absurd h₂ (by simp)
          · rw [if_neg hxy, if_neg hyx] at h₁
            rw [if_neg hyz, if_neg hzy] at h₂
            rw [if_neg (by omega : ¬ x.toNat < z.toNat),
              if_neg (by omega : ¬ z.toNat < x.toNat)]
            exact charsLe_trans xs ys zs h₁ h₂

theorem charsLe_antisymm : ∀ xs ys, charsLe xs ys = true → charsLe ys xs = true → xs = ys
  | [], [], _, _ => rfl
  | [], _ :: _, _, h₂ => by simp [charsLe] at h₂
  | _ :: _, [], h₁, _ => by simp [charsLe] at h₁
  | x :: xs, y :: ys, h₁, h₂ => by
    simp only [charsLe] at h₁ h₂
    by_cases hxy : x.toNat < y.toNat
    · rw [if_neg (by omega), if_pos hxy] at h₂
      exact absurd h₂ (by simp)
    · by_cases hyx : y.toNat < x.toNat
      · rw [if_neg hxy, if_pos hyx] at h₁
        exact absurd h₁ (by simp)
      · rw [if_neg hxy, if_neg hyx] at h₁
        rw [if_neg hyx, if_neg hxy] at h₂
        have hnat : x.toNat = y.toNat := by omega
        have hc : x = y := Char.ext (@UInt32.toNat.inj x.val y.val hnat)
        rw [hc, charsLe_antisymm xs ys h₁ h₂]

theorem strLe_total (a b : String) : strLe a b = true ∨ strLe b a = true :=
  charsLe_total a.data b.data

theorem strLe_trans {a b c : String} (h₁ : strLe a b = true) (h₂ : strLe b c = true) :
    strLe a c = true :=
  charsLe_trans a.data b.data c.data h₁ h₂

theorem strLe_antisymm {a b : String} (h₁ : strLe a b = true) (h₂ : strLe b a = true) :
    a = b := by
  have hd := charsLe_antisymm a.data b.data h₁ h₂
  cases a
  cases b
  exact congrArg String.mk (by simpa using hd)

/-- Two sorted lists of key-value pairs over an antisymmetric key order
that are permutations of each other with duplicate-free keys are
identical. -/
theorem sorted_key_nodup_eq {K V : Type} [DecidableEq K] (le : K → K → Bool)
    (hanti : ∀ x y, le x y = true → le y x = true → x = y) :
    ∀ (l₁ l₂ : List (K × V)), List.Perm l₁ l₂ →
    List.Pairwise (fun a b => le a.1 b.1 = true) l₁ →
    List.Pairwise (fun a b => le a.1 b.1 = true) l₂ →
    (l₁.map Prod.fst).Nodup → l₁ = l₂
  | [], _, hperm, _, _, _ => hperm.nil_eq
  | a :: t₁, [], hperm, _, _, _ => by
    have := hperm.length_eq
    simp at this
  | a :: t₁, b :: t₂, hperm, hs₁, hs₂, hnd => by
    have hab : a = b := by
      have ha2 : a ∈ b :: t₂ := hperm.mem_iff.mp (List.mem_cons_self a t₁)
      rcases List.mem_cons.mp ha2 with h | hat₂
      · exact h
      · have hb1 : b ∈ a :: t₁ := hperm.symm.mem_iff.mp (List.mem_cons_self b t₂)
        rcases List.mem_cons.mp hb1 with h | hbt₁
        · exact h.symm
        · have h₁ : le a.1 b.1 = true := (List.pairwise_cons.mp hs₁).1 b hbt₁
          have h₂ : le b.1 a.1 = true := (List.pairwise_cons.mp hs₂).1 a hat₂
          have hkey : a.1 = b.1 := hanti _ _ h₁ h₂
          exact List.inj_on_of_nodup_map hnd (List.mem_cons_self a t₁)
            (List.mem_cons.mpr (Or.inr hbt₁)) hkey
    subst hab
    have hnd' : (t₁.map Prod.fst).Nodup := by
      rw [List.map_cons, List.nodup_cons] at hnd
      exact hnd.2
    have ht := sorted_key_nodup_eq le hanti t₁ t₂ hperm.cons_inv
      (List.pairwise_cons.mp hs₁).2 (List.pairwise_cons.mp hs₂).2 hnd'
    rw [ht]


theorem canonFields_keys : ∀ (l : JFields),
    (canonFields l).map Prod.fst = l.toList.map Prod.fst
  | .nil => rfl
  | .fcons k v rest => by
    simp only [canonFields, JFields.toList, List.map_cons]
    rw [canonFields_keys rest]

theorem FInsert_canonFields {k : String} {w : JVal} {l l' : JFields}
    (h : FInsert k w l l') :
    List.Perm (canonFields l') ((k, canonicalize w) :: canonFields l) := by
  induction h with
  | head l => exact List.Perm.refl _
  | tail k' v' h ih =>
    simp only [canonFields]
    exact (List.Perm.cons _ ih).trans (List.Perm.swap _ _ _)

theorem FInsert_keys {k : String} {w : JVal} {l l' : JFields}
    (h : FInsert k w l l') :
    List.Perm (l'.toList.map Prod.fst) (k :: l.toList.map Prod.fst) := by
  induction h with
  | head l => exact List.Perm.refl _
  | tail k' v' h ih =>
    simp only [JFields.toList, List.map_cons]
    exact (List.Perm.cons _ ih).trans (List.Perm.swap _ _ _)

theorem FInsert_wf {k : String} {w : JVal} {l l' : JFields}
    (h : FInsert k w l l') (hw : wfKeys w = true) (hl : wfFields l = true) :
    wfFields l' = true := by
  induction h with
  | head l => simp only [wfFields, Bool.and_eq_true]; exact ⟨hw, hl⟩
  | tail k' v' h ih =>
    simp only [wfFields, Bool.and_eq_true] at hl ⊢
    exact ⟨hl.1, ih hl.2⟩

theorem fieldsPerm_keys : ∀ {l₁ l₂ : JFields}, FieldsPerm l₁ l₂ →
    List.Perm (l₁.toList.map Prod.fst) (l₂.toList.map Prod.fst)
  | _, _, .nil => List.Perm.refl _
  | _, _, .cons k hv hrest hins => by
    simp only [JFields.toList, List.map_cons]
    exact (List.Perm.cons k (fieldsPerm_keys hrest)).trans (FInsert_keys hins).symm
termination_by l₁ _ _ => sizeOf l₁

mutual
theorem keyPerm_wf : ∀ {a b : JVal}, KeyPerm a b → wfKeys a = true → wfKeys b = true
  | _, _, .str _, h => h
  | _, _, .num _, h => h
  | _, _, .bool _, h => h
  | _, _, .null, h => h
  | _, _, .obj hf, h => by
    simp only [wfKeys, Bool.and_eq_true, decide_eq_true_eq] at h ⊢
    exact ⟨((fieldsPerm_keys hf).nodup_iff).mp h.1, fieldsPerm_wf hf h.2⟩
termination_by a _ _ _ => sizeOf a
theorem fieldsPerm_wf : ∀ {l₁ l₂ : JFields}, FieldsPerm l₁ l₂ →
    wfFields l₁ = true → wfFields l₂ = true
  | _, _, .nil, h => h
  | _, _, .cons _ hv hrest hins, h => by
    simp only [wfFields, Bool.and_eq_true] at h
    exact FInsert_wf hins (keyPerm_wf hv h.1) (fieldsPerm_wf hrest h.2)
termination_by l₁ _ _ _ => sizeOf l₁
end

mutual
theorem keyPerm_canon : ∀ {a b : JVal}, KeyPerm a b → wfKeys a = true →
    canonicalize a = canonicalize b
  | _, _, .str _, _ => rfl
  | _, _, .num _, _ => rfl
  | _, _, .bool _, _ => rfl
  | _, _, .null, _ => rfl
  | .obj fa, .obj fb, .obj hf, hwf => by
    simp only [wfKeys, Bool.and_eq_true, decide_eq_true_eq] at hwf
    have hperm := fieldsPerm_canon hf hwf.2
    have hnodupA : ((canonFields fa).map Prod.fst).Nodup := by
      rw [canonFields_keys]
      exact hwf.1
    haveI : IsTotal (String × JVal) (fun a b => strLe a.1 b.1 = true) :=
      ⟨fun a b => strLe_total a.1 b.1⟩
    haveI : IsTrans (String × JVal) (fun a b => strLe a.1 b.1 = true) :=
      ⟨fun _ _ _ hab hbc => strLe_trans hab hbc⟩
    simp only [canonicalize]
    have hkey := sorted_key_nodup_eq strLe (fun _ _ h₁ h₂ => strLe_antisymm h₁ h₂)
      (List.insertionSort (fun a b => strLe a.1 b.1 = true) (canonFields fa))
      (List.insertionSort (fun a b => strLe a.1 b.1 = true) (canonFields fb))
      (((List.perm_insertionSort _ _).trans hperm).trans
        (List.perm_insertionSort _ _).symm)
      (List.sorted_insertionSort _ _)
      (List.sorted_insertionSort _ _)
      ((((List.perm_insertionSort _ _).map Prod.fst).nodup_iff).mpr hnodupA)
    rw [hkey]
termination_by a _ _ _ => sizeOf a
theorem fieldsPerm_canon : ∀ {l₁ l₂ : JFields}, FieldsPerm l₁ l₂ → wfFields l₁ = true →
    List.Perm (canonFields l₁) (canonFields l₂)
  | _, _, .nil, _ => List.Perm.refl _
  | _, _, .cons k hv hrest hins, h => by
    simp only [wfFields, Bool.and_eq_true] at h
    simp only [canonFields]
    rw [keyPerm_canon hv h.1]
    exact (List.Perm.cons _ (fieldsPerm_canon hrest h.2)).trans
      (FInsert_canonFields hins).symm
termination_by l₁ _ _ _ => sizeOf l₁
end

/-- C8: the serialization handed to the signer is canonical. For any two
JSON payloads that are the same object up to key insertion order at
every nesting level (with well-formed, duplicate-free keys), the
replacer-then-stringify pipeline of generateAuthToken produces the
IDENTICAL string; moreover the concrete signPayload built by the code is
already in canonical key order for every timestamp. -/
theorem canonical_json_deterministic :
    (∀ a b : JVal, KeyPerm a b → wfKeys a = true →
      stringify (canonicalize a) = stringify (canonicalize b)) ∧
    (∀ ts : Int, canonicalize (signPayload ts) = signPayload ts) := by
  constructor
  · intro a b h hwf
    rw [keyPerm_canon h hwf]
  · intro ts
    rfl

/-- Witness for the hypotheses of the C8 theorem: the object written
with its two keys in the orders b,a and a,b serializes identically. -/
theorem canonical_json_deterministic_witness :
    stringify (canonicalize
      (JVal.obj (.fcons "b" (JVal.num 1) (.fcons "a" (JVal.str "x") .nil)))) =
    stringify (canonicalize
      (JVal.obj (.fcons "a" (JVal.str "x") (.fcons "b" (JVal.num 1) .nil)))) :=
  canonical_json_deterministic.1 _ _
    (KeyPerm.obj (FieldsPerm.cons "b" (KeyPerm.num 1)
      (FieldsPerm.cons "a" (KeyPerm.str "x") FieldsPerm.nil (FInsert.head JFields.nil))
      (FInsert.tail "a" (JVal.str "x") (FInsert.head JFields.nil))))
    (by rfl)

/-! ## ApiClient error handling (client.ts, handleError)

handleError normalizes an error into a WarpcastError carrying message,
status, code and the raw response data (details). Only the mutating
operations (publishCast, likeCast, unlikeCast, recast, unrecast,
followUser, unfollowUser) wrap their awaited request in try/catch and
rethrow this.handleError(error); read operations such as getProfile have
no such wrapper and let the transport error propagate unchanged. Each
operation is modelled as a function of its transport outcome.
-/

structure WarpcastError where
  message : String
  status : Option Nat
  code : Option String
  details : Option String
deriving Repr, DecidableEq

/-- An error flowing out of an operation: a raw axios transport error
(message plus the optional response fields), an already-normalized
WarpcastError, or a plain thrown value. -/
inductive ClientError where
  | axios (message : String) (responseStatus : Option Nat)
      (responseCode : Option String) (responseMessage : Option String)
      (responseData : Option String)
  | warpcast (w : WarpcastError)
  | plain (msg : String)
deriving Repr, DecidableEq

/-- handleError: the message prefers response.data.message for axios
errors and falls back to the error's own message; status, code and
details are populated only for axios errors. -/
def handleError : ClientError → WarpcastError
  | .axios message responseStatus responseCode responseMessage responseData =>
    { message := match responseMessage with
        | some m => m
        | none => message
      status := responseStatus
      code := responseCode
      details := responseData }
  | .warpcast w =>
    { message := w.message, status := none, code := none, details := none }
  | .plain m =>
    { message := m, status := none, code := none, details := none }

def ClientError.isNormalized : ClientError → Bool
  | .warpcast _ => true
  | .axios _ _ _ _ _ => false
  | .plain _ => false

/-- publishCast (and the other mutating operations): try/catch around
the awaited request, rethrowing handleError(error). -/
def publishCastResult {A : Type} : Except ClientError A → Except ClientError A
  | .ok v => .ok v
  | .error e => .error (.warpcast (handleError e))

/-- getProfile (and the other read operations): no try/catch — the
transport error propagates to the caller unchanged. -/
def getProfileResult {A : Type} : Except ClientError A → Except ClientError A
  | .ok v => .ok v
  | .error e => .error e

/-- C9 counterexample: getProfile does NOT normalize transport errors.
A 404 axios error propagates out of getProfile as the raw axios error,
not as the single normalized error shape. -/
theorem client_error_counterexample :
    getProfileResult (A := Unit)
      (Except.error (ClientError.axios "Request failed" (some 404) none none none)) =
      Except.error (ClientError.axios "Request failed" (some 404) none none none) ∧
    (ClientError.axios "Request failed" (some 404) none none none).isNormalized = false := by
  exact ⟨rfl, rfl⟩

/-- C9 (amended): no operation swallows a transport error or returns a
success value when its HTTP call failed — the error is always re-raised;
but only the mutating operations (publishCast, likeCast, unlikeCast,
recast, unrecast, followUser, unfollowUser) normalize it through
handleError into the single WarpcastError shape carrying status, code
and raw details; read operations such as getProfile re-raise the
transport error unnormalized. -/
theorem client_error_propagation :
    (∀ (A : Type) (e : ClientError),
      publishCastResult (A := A) (Except.error e) =
        Except.error (ClientError.warpcast (handleError e)) ∧
      (ClientError.warpcast (handleError e)).isNormalized = true) ∧
    (∀ (A : Type) (e : ClientError),
      getProfileResult (A := A) (Except.error e) = Except.error e) ∧
    (∀ (A : Type) (r : Except ClientError A) (v : A),
      publishCastResult r = Except.ok v → r = Except.ok v) ∧
    (∀ (A : Type) (r : Except ClientError A) (v : A),
      getProfileResult r = Except.ok v → r = Except.ok v) ∧
    (∀ (e : ClientError), (handleError e).status =
      (match e with
       | .axios _ responseStatus _ _ _ => responseStatus
       | _ => none)) := by
  refine ⟨?_, ?_, ?_, ?_, ?_⟩
  · intro A e
    exact ⟨rfl, rfl⟩
  · intro A e
    rfl
  · intro A r v h
    cases r with
    | ok w => simpa [publishCastResult] using h
    | error e => simp [publishCastResult] at h
  · intro A r v h
    cases r with
    | ok w => simpa [getProfileResult] using h
    | error e => simp [getProfileResult] at h
  · intro e
    cases e <;> rfl

/-- Witness for the hypotheses of the amended C9 theorem: a successful
publishCast result can only come from a successful transport call. -/
theorem client_error_propagation_witness :
    (Except.ok () : Except ClientError Unit) = Except.ok () :=
  client_error_propagation.2.2.1 Unit (Except.ok ()) () rfl

/-! ## Request interceptor (client.ts constructor)

Every outbound request passes the axios request interceptor: it reads
the WARPCAST_BEARER_TOKEN runtime setting; when that value is falsy
(absent or the empty string) it awaits getValidAuthToken, otherwise it
uses the setting directly; either way the Authorization header is set to
"Bearer " followed by the token. The managed token value is abstracted
by the parameter managed; the manager state transition is tmEnter.
-/

def requestInterceptor (setting : Option String) (now : Nat) (managed : String)
    (s : TMState) : String × TMState × Bool :=
  match setting with
  | some tok =>
    if tok ≠ "" then ("Bearer " ++ tok, s, false)
    else ("Bearer " ++ managed, (tmEnter now s).1, true)
  | none => ("Bearer " ++ managed, (tmEnter now s).1, true)

/-- C10 counterexample: the managed token path is used not ONLY when the
setting is absent: with WARPCAST_BEARER_TOKEN set to the empty string
(present but falsy in JS), the interceptor still takes the managed path
and invokes the token manager. -/
theorem interceptor_counterexample :
    (requestInterceptor (some "") 0 "m" TMState.init).2.2 = true ∧
    (some "" : Option String) ≠ none ∧
    (requestInterceptor (some "") 0 "m" TMState.init).2.1.started = 1 := by
  refine ⟨rfl, by decide, rfl⟩

/-- C10 (amended): when WARPCAST_BEARER_TOKEN is set to a non-empty
value the interceptor uses it as the bearer token and never invokes the
token manager — no signing, exchange or caching, whatever the cached
state; the managed path runs exactly when the setting is absent OR
empty. -/
theorem interceptor_bearer_override :
    (∀ (tok : String) (now : Nat) (managed : String) (s : TMState), tok ≠ "" →
      requestInterceptor (some tok) now managed s = ("Bearer " ++ tok, s, false)) ∧
    (∀ (setting : Option String) (now : Nat) (managed : String) (s : TMState),
      (requestInterceptor setting now managed s).2.2 = true ↔
        (setting = none ∨ setting = some "")) ∧
    (∀ (now : Nat) (managed : String) (s : TMState),
      (requestInterceptor none now managed s).1 = "Bearer " ++ managed ∧
      (requestInterceptor none now managed s).2.1 = (tmEnter now s).1) := by
  refine ⟨?_, ?_, ?_⟩
  · intro tok now managed s htok
    simp [requestInterceptor, htok]
  · intro setting now managed s
    cases setting with
    | none => simp [requestInterceptor]
    | some tok =>
      by_cases htok : tok = ""
      · subst htok
        simp [requestInterceptor]
      · simp [requestInterceptor, htok]
  · intro now managed s
    exact ⟨rfl, rfl⟩

/-- Witness for the hypotheses of the amended C10 theorem: with the
setting "secret" the header uses it directly and the manager state is
untouched. -/
theorem interceptor_bearer_override_witness :
    requestInterceptor (some "secret") 0 "m" TMState.init
      = ("Bearer " ++ "secret", TMState.init, false) :=
  interceptor_bearer_override.1 "secret" 0 "m" TMState.init (by decide)
